import Mathlib

/-!
# Verification of the FolderCrypto engine (app/core, app/services)

Shallow embedding of the password-based folder encryption engine:
`CryptoEngine` (chunked AES-256-GCM file cipher, metadata sealing),
`FileProcessor` (tree walking, manifest, reconstruction),
`KeyDerivation` (key derivation and password strength) and the two
service facades (`EncryptService`, `DecryptService`).

Byte strings are modelled as `List Nat`.  The AES-256-GCM primitive from
the `cryptography` library is modelled as an ideal authenticated cipher:
sealing appends a 16-entry authentication block whose last entry is an
injective encoding of (key, nonce, associated data, plaintext); opening
checks that block and strips it.  This gives the exact GCM length
arithmetic (`len(ct) = len(pt) + 16`) together with perfect
authentication, which is the standard idealisation for functional
correctness proofs.  Likewise PBKDF2 is modelled as an ideal injective
derivation function.  Everything else is translated from the Python
source line by line.
-/

/-! ## Injective encodings used by the ideal primitives -/

/-- Positional encoding of a list in base `B` with a leading sentinel `1`.
Injective on lists whose entries are all `< B`. -/
def encPos (B : Nat) : List Nat → Nat
  | [] => 1
  | a :: l => encPos B l * B + a

/-- Maximum entry of a list (0 for the empty list). -/
def maxL (l : List Nat) : Nat := l.foldr Nat.max 0

/-- Injective encoding of an arbitrary `List Nat` into a single `Nat`:
pair the maximum entry with the positional encoding in base `max + 2`. -/
def encodeMixed (l : List Nat) : Nat := Nat.pair (maxL l) (encPos (maxL l + 2) l)

/-- Fuelled decoder for `encPos`. -/
def decodePosF : Nat → Nat → Nat → Option (List Nat)
  | 0, _, _ => none
  | f + 1, B, e =>
    if e = 0 then none
    else if e = 1 then some []
    else
      match decodePosF f B (e / B) with
      | some l => some (e % B :: l)
      | none => none

/-- Decoder for `encodeMixed`. -/
def decodeMixed (n : Nat) : Option (List Nat) :=
  decodePosF (n.unpair.2 + 1) (n.unpair.1 + 2) n.unpair.2

theorem encPos_pos (B : Nat) (hB : 1 ≤ B) (l : List Nat) : 1 ≤ encPos B l := by
  induction l with
  | nil => simp [encPos]
  | cons a l ih =>
    simp only [encPos]
    calc 1 ≤ encPos B l * 1 := by simpa using ih
      _ ≤ encPos B l * B := Nat.mul_le_mul_left _ hB
      _ ≤ encPos B l * B + a := Nat.le_add_right _ _

theorem le_maxL {a : Nat} {l : List Nat} (h : a ∈ l) : a ≤ maxL l := by
  induction l with
  | nil => cases h
  | cons b t ih =>
    rcases List.mem_cons.mp h with h | h
    · subst h; simp only [maxL, List.foldr]; exact Nat.le_max_left _ _
    · have := ih h
      simp only [maxL, List.foldr] at *
      exact le_trans this (Nat.le_max_right _ _)

theorem decodePosF_encPos (l : List Nat) : ∀ (f B : Nat), 2 ≤ B →
    (∀ a ∈ l, a < B) → encPos B l < f → decodePosF f B (encPos B l) = some l := by
  induction l with
  | nil =>
    intro f B hB _ hf
    simp only [encPos] at hf ⊢
    match f, hf with
    | f + 1, _ => simp [decodePosF]
  | cons a l ih =>
    intro f B hB hmem hf
    have hpos := encPos_pos B (by omega) l
    have ha : a < B := hmem a (by simp)
    have he : encPos B (a :: l) = B * encPos B l + a := by
      simp only [encPos]; ring
    have hge : 2 ≤ encPos B (a :: l) := by
      rw [he]
      have h2 : 2 * 1 ≤ B * encPos B l := Nat.mul_le_mul hB hpos
      omega
    match f, hf with
    | f + 1, hf =>
      have h0 : encPos B (a :: l) ≠ 0 := by omega
      have h1 : encPos B (a :: l) ≠ 1 := by omega
      have hdiv : encPos B (a :: l) / B = encPos B l := by
        rw [he, Nat.mul_add_div (by omega), Nat.div_eq_of_lt ha, Nat.add_zero]
      have hmod : encPos B (a :: l) % B = a := by
        rw [he, Nat.mul_add_mod, Nat.mod_eq_of_lt ha]
      have hstep : encPos B l < encPos B (a :: l) := by
        have h2 : encPos B l * 2 ≤ encPos B l * B := Nat.mul_le_mul_left _ hB
        rw [he]; nlinarith
      have hlt : encPos B l < f := by omega
      simp only [decodePosF, h0, h1, if_false, hdiv,
        ih f B hB (fun x hx => hmem x (by simp [hx])) hlt, hmod]

theorem decodeMixed_encodeMixed (l : List Nat) : decodeMixed (encodeMixed l) = some l := by
  unfold decodeMixed encodeMixed
  rw [Nat.unpair_pair]
  exact decodePosF_encPos l _ _ (by omega)
    (fun a ha => by have := le_maxL ha; omega)
    (Nat.lt_succ_self _)

theorem encodeMixed_injective : Function.Injective encodeMixed := by
  intro a b h
  have ha := decodeMixed_encodeMixed a
  have hb := decodeMixed_encodeMixed b
  rw [h, hb] at ha
  exact Option.some_injective _ ha.symm

/-! ## Ideal AES-256-GCM (the `cryptography` library's `AESGCM`)

`AESGCM.encrypt(nonce, data, ad)` returns `ciphertext || 16-byte tag`.
We model the tag as fifteen zero entries followed by one entry that
injectively encodes (key, nonce, ad, plaintext); `AESGCM.decrypt`
recomputes and checks it, raising `InvalidTag` (modelled as `none`) on
any mismatch or if the input is shorter than the tag. -/

/-- The 16-entry ideal GCM authentication block. -/
def gcmTag (key nonce ad pt : List Nat) : List Nat :=
  List.replicate 15 0 ++
    [Nat.pair (encodeMixed key)
      (Nat.pair (encodeMixed nonce) (Nat.pair (encodeMixed ad) (encodeMixed pt)))]

/-- `AESGCM(key).encrypt(nonce, pt, ad)`. -/
def aesgcmEncrypt (key nonce pt ad : List Nat) : List Nat :=
  pt ++ gcmTag key nonce ad pt

/-- `AESGCM(key).decrypt(nonce, ct, ad)`; `none` models `InvalidTag`. -/
def aesgcmDecrypt (key nonce ct ad : List Nat) : Option (List Nat) :=
  if 16 ≤ ct.length then
    let pt := ct.take (ct.length - 16)
    if ct.drop (ct.length - 16) = gcmTag key nonce ad pt then some pt else none
  else none

theorem length_gcmTag (key nonce ad pt : List Nat) : (gcmTag key nonce ad pt).length = 16 := by
  simp [gcmTag]

theorem length_aesgcmEncrypt (key nonce pt ad : List Nat) :
    (aesgcmEncrypt key nonce pt ad).length = pt.length + 16 := by
  simp [aesgcmEncrypt, length_gcmTag]

theorem gcmTag_inj {k n a p k' n' a' p' : List Nat}
    (h : gcmTag k n a p = gcmTag k' n' a' p') : k = k' ∧ n = n' ∧ a = a' ∧ p = p' := by
  simp only [gcmTag, List.append_cancel_left_eq, List.cons.injEq, and_true,
    Nat.pair_eq_pair] at h
  exact ⟨encodeMixed_injective h.1, encodeMixed_injective h.2.1,
    encodeMixed_injective h.2.2.1, encodeMixed_injective h.2.2.2⟩

theorem aesgcmDecrypt_encrypt (key nonce pt ad : List Nat) :
    aesgcmDecrypt key nonce (aesgcmEncrypt key nonce pt ad) ad = some pt := by
  have hlen : (aesgcmEncrypt key nonce pt ad).length = pt.length + 16 :=
    length_aesgcmEncrypt key nonce pt ad
  have htake : (aesgcmEncrypt key nonce pt ad).take pt.length = pt := by
    simp [aesgcmEncrypt, List.take_left']
  have hdrop : (aesgcmEncrypt key nonce pt ad).drop pt.length =
      gcmTag key nonce ad pt := by
    simp [aesgcmEncrypt, List.drop_left']
  simp [aesgcmDecrypt, hlen, htake, hdrop]

/-- Opening a sealed blob with any mismatching parameter fails. -/
theorem aesgcmDecrypt_wrong (key nonce pt ad key' nonce' ad' : List Nat)
    (h : key' ≠ key ∨ nonce' ≠ nonce ∨ ad' ≠ ad) :
    aesgcmDecrypt key' nonce' (aesgcmEncrypt key nonce pt ad) ad' = none := by
  have hlen : (aesgcmEncrypt key nonce pt ad).length = pt.length + 16 :=
    length_aesgcmEncrypt key nonce pt ad
  have htake : (aesgcmEncrypt key nonce pt ad).take pt.length = pt := by
    simp [aesgcmEncrypt, List.take_left']
  have hdrop : (aesgcmEncrypt key nonce pt ad).drop pt.length =
      gcmTag key nonce ad pt := by
    simp [aesgcmEncrypt, List.drop_left']
  simp only [aesgcmDecrypt, hlen, Nat.add_sub_cancel, Nat.le_add_left, if_true, htake, hdrop]
  rw [if_neg]
  intro hc
  rcases gcmTag_inj hc with ⟨hk, hn, ha, _⟩
  rcases h with h | h | h
  · exact h hk.symm
  · exact h hn.symm
  · exact h ha.symm

/-! ## Error model (`app/core/exceptions.py`)

Each constructor records one concrete `raise` site (the exception class
it is raised as, plus the message variant, plus any wrapped inner
exception).  `PyExc.cls` gives the Python exception class. -/

/-- The exception classes of `app/core/exceptions.py` that the modelled
code can raise. -/
inductive ExcClass where
  | decryptionError
  | encryptionError
  | invalidPasswordError
  | fileProcessingError
  | invalidMetadataError
deriving DecidableEq, Repr

/-- Exceptions raised by the modelled code, one constructor per raise
site. -/
inductive PyExc where
  /-- `DecryptionError("Invalid file: empty or corrupted")` -/
  | decEmptyFile : PyExc
  /-- `DecryptionError("Unsupported file version: ...")` -/
  | decUnsupportedVersion (v : Nat) : PyExc
  /-- `DecryptionError("Invalid file: corrupted header")` -/
  | decCorruptedHeader : PyExc
  /-- `DecryptionError("Invalid file: corrupted chunk size")` -/
  | decCorruptedChunkSize : PyExc
  /-- `DecryptionError("Invalid file: corrupted chunk data")` -/
  | decCorruptedChunkData : PyExc
  /-- `DecryptionError("Decryption failed: wrong password or corrupted data")`
  raised on chunk AEAD failure in `decrypt_file` -/
  | decWrongPasswordOrCorrupted : PyExc
  /-- `DecryptionError("File size mismatch: ...")` -/
  | decFileSizeMismatch (expected got : Nat) : PyExc
  /-- `DecryptionError("Metadata decryption failed: wrong password or corrupted data")`
  raised on AEAD failure in `decrypt_metadata` -/
  | decMetadataFailed : PyExc
  /-- `InvalidMetadataError("Metadata file not found: ...")` -/
  | metaNotFound : PyExc
  /-- `InvalidMetadataError("Unsupported metadata version: ...")` -/
  | metaUnsupportedVersion (v : Nat) : PyExc
  /-- `InvalidMetadataError("Failed to load metadata: ...")` wrapping a
  JSON or schema parse failure -/
  | metaParseFailed : PyExc
  /-- `InvalidMetadataError("Failed to load metadata: ...")` wrapping
  another raised exception -/
  | metaLoadFailed (inner : PyExc) : PyExc
  /-- `FileProcessingError("Encrypted file not found: ...")` -/
  | procEncryptedFileNotFound (path : List Nat) : PyExc
  /-- `FileProcessingError("Size mismatch for ...")` -/
  | procSizeMismatch (path : List Nat) (expected got : Nat) : PyExc
  /-- `FileProcessingError("Failed to decrypt ...")` wrapping another
  raised exception -/
  | procDecryptFailed (path : List Nat) (inner : PyExc) : PyExc
  /-- `InvalidPasswordError("Password cannot be empty")` -/
  | passEmpty : PyExc
  /-- `InvalidPasswordError("Salt must be exactly 32 bytes")` -/
  | passBadSalt : PyExc
  /-- `InvalidPasswordError(message)` raised by `EncryptService` when the
  password fails the strength check -/
  | passWeak : PyExc
  /-- `DecryptionError("Salt file not found. Invalid encrypted folder.")` -/
  | svcSaltNotFound : PyExc
  /-- `DecryptionError("Invalid salt file. Corrupted encrypted folder.")` -/
  | svcInvalidSaltFile : PyExc
  /-- `DecryptionError("Invalid password: ...")` wrapping an
  `InvalidPasswordError` from `derive_key` in `DecryptService` -/
  | svcInvalidPassword (inner : PyExc) : PyExc
  /-- `DecryptionError("Decryption failed: ...")` wrapping another raised
  exception in `DecryptService` -/
  | svcDecryptionFailed (inner : PyExc) : PyExc
deriving DecidableEq, Repr

/-- The Python exception class of each raise site. -/
def PyExc.cls : PyExc → ExcClass
  | .decEmptyFile | .decUnsupportedVersion _ | .decCorruptedHeader
  | .decCorruptedChunkSize | .decCorruptedChunkData
  | .decWrongPasswordOrCorrupted | .decFileSizeMismatch _ _
  | .decMetadataFailed => .decryptionError
  | .metaNotFound | .metaUnsupportedVersion _ | .metaParseFailed
  | .metaLoadFailed _ => .invalidMetadataError
  | .procEncryptedFileNotFound _ | .procSizeMismatch _ _ _
  | .procDecryptFailed _ _ => .fileProcessingError
  | .passEmpty | .passBadSalt | .passWeak => .invalidPasswordError
  | .svcSaltNotFound | .svcInvalidSaltFile | .svcInvalidPassword _
  | .svcDecryptionFailed _ => .decryptionError

/-! ## `app/core/crypto_engine.py` — `CryptoEngine` -/

namespace CryptoEngine

/-- `struct.pack("B", v)`. -/
def packU8 (v : Nat) : List Nat := [v % 256]

/-- `struct.pack("<I", v)` (little-endian u32). -/
def packLEu32 (v : Nat) : List Nat :=
  [v % 256, v / 256 % 256, v / 256 ^ 2 % 256, v / 256 ^ 3 % 256]

/-- `struct.pack("<Q", v)` (little-endian u64). -/
def packLEu64 (v : Nat) : List Nat :=
  [v % 256, v / 256 % 256, v / 256 ^ 2 % 256, v / 256 ^ 3 % 256,
   v / 256 ^ 4 % 256, v / 256 ^ 5 % 256, v / 256 ^ 6 % 256, v / 256 ^ 7 % 256]

/-- `struct.unpack` of a little-endian byte string. -/
def unpackLE (l : List Nat) : Nat := l.foldr (fun b acc => acc * 256 + b) 0

theorem length_packLEu32 (v : Nat) : (packLEu32 v).length = 4 := rfl

theorem length_packLEu64 (v : Nat) : (packLEu64 v).length = 8 := rfl

theorem unpackLE_packLEu32 (v : Nat) (h : v < 2 ^ 32) : unpackLE (packLEu32 v) = v := by
  simp only [unpackLE, packLEu32, List.foldr]
  norm_num at h ⊢
  omega

theorem unpackLE_packLEu64 (v : Nat) (h : v < 2 ^ 64) : unpackLE (packLEu64 v) = v := by
  simp only [unpackLE, packLEu64, List.foldr]
  norm_num at h ⊢
  omega

/-- `CryptoEngine._derive_chunk_nonce`: XOR `struct.pack("<Q", chunk_number)`
into the last 8 positions of the base nonce (`nonce[-(8-i)] ^= chunk_bytes[i]`). -/
def derive_chunk_nonce (base_nonce : List Nat) (chunk_number : Nat) : List Nat :=
  let chunk_bytes := packLEu64 chunk_number
  (List.range base_nonce.length).map fun j =>
    if base_nonce.length ≤ j + 8 then
      base_nonce.getD j 0 ^^^ chunk_bytes.getD (j + 8 - base_nonce.length) 0
    else base_nonce.getD j 0

/-- The chunk loop of `CryptoEngine.encrypt_file`: read 64 KiB chunks,
seal each with the derived nonce and `ad || le_u64(chunk_number)`, and emit
`le_u32(len(ct)) || ct` records. -/
def encrypt_chunks (key nonce associated_data : List Nat) (pt : List Nat)
    (chunk_number : Nat) : List Nat :=
  if h : pt = [] then []
  else
    let chunk := pt.take 65536
    let chunk_ad := associated_data ++ packLEu64 chunk_number
    let chunk_nonce := derive_chunk_nonce nonce chunk_number
    let encrypted_chunk := aesgcmEncrypt key chunk_nonce chunk chunk_ad
    packLEu32 encrypted_chunk.length ++ encrypted_chunk ++
      encrypt_chunks key nonce associated_data (pt.drop 65536) (chunk_number + 1)
  termination_by pt.length
  decreasing_by
    have hpos : 0 < pt.length := List.length_pos.mpr h
    simp only [List.length_drop]
    omega

/-- `CryptoEngine.encrypt_file` with the random base nonce lifted to a
parameter: header `[version] || nonce || le_u64(file_size)` followed by the
chunk records. -/
def encrypt_file (key nonce input_file associated_data : List Nat) : List Nat :=
  packU8 1 ++ nonce ++ packLEu64 input_file.length ++
    encrypt_chunks key nonce associated_data input_file 0

/-- The chunk loop of `CryptoEngine.decrypt_file`: repeatedly read a u32
chunk size and that many bytes, open each chunk, concatenate plaintexts. -/
def decrypt_chunks (key nonce associated_data : List Nat) (rest : List Nat)
    (chunk_number : Nat) : Except PyExc (List Nat) :=
  if h : rest = [] then .ok []
  else if rest.length < 4 then .error .decCorruptedChunkSize
  else
    let chunk_size := unpackLE (rest.take 4)
    let body := rest.drop 4
    if body.length < chunk_size then .error .decCorruptedChunkData
    else
      let encrypted_chunk := body.take chunk_size
      let chunk_ad := associated_data ++ packLEu64 chunk_number
      let chunk_nonce := derive_chunk_nonce nonce chunk_number
      match aesgcmDecrypt key chunk_nonce encrypted_chunk chunk_ad with
      | none => .error .decWrongPasswordOrCorrupted
      | some decrypted_chunk =>
        match decrypt_chunks key nonce associated_data
            (body.drop chunk_size) (chunk_number + 1) with
        | .ok out => .ok (decrypted_chunk ++ out)
        | .error e => .error e
  termination_by rest.length
  decreasing_by
    have hpos : 0 < rest.length := List.length_pos.mpr h
    simp only [List.length_drop]
    omega

/-- `CryptoEngine.decrypt_file`: validate the header, decrypt the chunk
records, and require the accumulated plaintext length to equal the
header's declared size. -/
def decrypt_file (key input_file associated_data : List Nat) :
    Except PyExc (List Nat) :=
  match input_file with
  | [] => .error .decEmptyFile
  | version :: rest =>
    if version ≠ 1 then .error (.decUnsupportedVersion version)
    else
      let nonce := rest.take 12
      if nonce.length ≠ 12 then .error .decCorruptedHeader
      else
        let rest2 := rest.drop 12
        let file_size_bytes := rest2.take 8
        if file_size_bytes.length ≠ 8 then .error .decCorruptedHeader
        else
          let expected_file_size := unpackLE file_size_bytes
          match decrypt_chunks key nonce associated_data (rest2.drop 8) 0 with
          | .error e => .error e
          | .ok out =>
            if out.length ≠ expected_file_size then
              .error (.decFileSizeMismatch expected_file_size out.length)
            else .ok out

/-- The literal associated data `b"metadata"` (UTF-8). -/
def metadataAD : List Nat := [109, 101, 116, 97, 100, 97, 116, 97]

/-- `CryptoEngine.encrypt_metadata`. -/
def encrypt_metadata (key data nonce : List Nat) : List Nat :=
  aesgcmEncrypt key nonce data metadataAD

/-- `CryptoEngine.decrypt_metadata`. -/
def decrypt_metadata (key encrypted_data nonce : List Nat) :
    Except PyExc (List Nat) :=
  match aesgcmDecrypt key nonce encrypted_data metadataAD with
  | some pt => .ok pt
  | none => .error .decMetadataFailed

theorem encrypt_chunks_nil (key nonce ad : List Nat) (i : Nat) :
    encrypt_chunks key nonce ad [] i = [] := by
  rw [encrypt_chunks]
  simp

theorem length_encrypt_chunks (key nonce ad : List Nat) (pt : List Nat) (i : Nat) :
    (encrypt_chunks key nonce ad pt i).length =
      ((pt.length + 65535) / 65536) * 20 + pt.length := by
  generalize hn : pt.length = n
  induction n using Nat.strong_induction_on generalizing pt i with
  | _ n ih =>
    rw [encrypt_chunks]
    by_cases hpt : pt = []
    · subst hpt
      simp at hn
      simp [← hn]
    · have hpos : 0 < pt.length := List.length_pos.mpr hpt
      have hdrop : (pt.drop 65536).length = pt.length - 65536 := by
        simp [List.length_drop]
      have hrec := ih (pt.drop 65536).length (by omega) (pt.drop 65536) (i + 1) rfl
      simp only [hpt, dif_neg, not_false_iff, List.length_append,
        length_packLEu32, length_aesgcmEncrypt, List.length_take, hrec, hdrop, hn]
      rw [hn] at hpos
      rcases Nat.le_total n 65536 with hle | hle
      · have hmn : min 65536 n = n := by omega
        rw [hmn]
        omega
      · have hmn : min 65536 n = 65536 := by omega
        rw [hmn]
        omega

theorem decrypt_chunks_encrypt_chunks (key nonce ad : List Nat) (pt : List Nat) (i : Nat) :
    decrypt_chunks key nonce ad (encrypt_chunks key nonce ad pt i) i = .ok pt := by
  generalize hn : pt.length = n
  induction n using Nat.strong_induction_on generalizing pt i with
  | _ n ih =>
    by_cases hpt : pt = []
    · subst hpt
      rw [encrypt_chunks_nil, decrypt_chunks]
      simp
    · rw [encrypt_chunks, dif_neg hpt]
      set c := pt.take 65536 with hc
      set ec := aesgcmEncrypt key (derive_chunk_nonce nonce i) c
        (ad ++ packLEu64 i) with hec
      set rec := encrypt_chunks key nonce ad (pt.drop 65536) (i + 1) with hrec
      have hecLen : ec.length = c.length + 16 := length_aesgcmEncrypt _ _ _ _
      have hcLen : c.length ≤ 65536 := by
        simp [hc, List.length_take]
      have hecLt : ec.length < 2 ^ 32 := by
        rw [hecLen]; omega
      have hlenAll : (packLEu32 ec.length ++ ec ++ rec).length =
          4 + ec.length + rec.length := by
        simp [length_packLEu32]
        omega
      rw [decrypt_chunks]
      rw [dif_neg (by
        intro hnil
        have := congrArg List.length hnil
        rw [hlenAll] at this
        simp at this)]
      rw [if_neg (by rw [hlenAll]; omega)]
      have htake4 : (packLEu32 ec.length ++ ec ++ rec).take 4 = packLEu32 ec.length := by
        rw [List.append_assoc, List.take_left' (length_packLEu32 _)]
      have hdrop4 : (packLEu32 ec.length ++ ec ++ rec).drop 4 = ec ++ rec := by
        rw [List.append_assoc, List.drop_left' (length_packLEu32 _)]
      simp only [htake4, hdrop4, unpackLE_packLEu32 _ hecLt]
      rw [if_neg (by simp only [List.length_append]; omega)]
      rw [List.take_left' rfl, List.drop_left' rfl]
      rw [show aesgcmDecrypt key (derive_chunk_nonce nonce i) ec (ad ++ packLEu64 i) =
        some c from aesgcmDecrypt_encrypt _ _ _ _]
      have hpos : 0 < pt.length := List.length_pos.mpr hpt
      have hdropLen : (pt.drop 65536).length = pt.length - 65536 := by
        simp [List.length_drop]
      have := ih (pt.drop 65536).length (by omega) (pt.drop 65536) (i + 1) rfl
      rw [hrec.symm] at this
      rw [this]
      simp [hc, List.take_append_drop]

theorem decrypt_metadata_encrypt_metadata (key data nonce : List Nat) :
    decrypt_metadata key (encrypt_metadata key data nonce) nonce = .ok data := by
  simp [encrypt_metadata, decrypt_metadata, aesgcmDecrypt_encrypt]

theorem decrypt_metadata_wrong_key (key key' data nonce : List Nat) (h : key' ≠ key) :
    decrypt_metadata key' (encrypt_metadata key data nonce) nonce =
      .error .decMetadataFailed := by
  simp [encrypt_metadata, decrypt_metadata,
    aesgcmDecrypt_wrong key nonce data metadataAD key' nonce metadataAD (Or.inl h)]

theorem decrypt_file_encrypt_file (key nonce pt ad : List Nat)
    (h12 : nonce.length = 12) (hsz : pt.length < 2 ^ 64) :
    decrypt_file key (encrypt_file key nonce pt ad) ad = .ok pt := by
  have hfile : encrypt_file key nonce pt ad =
      1 :: (nonce ++ (packLEu64 pt.length ++ encrypt_chunks key nonce ad pt 0)) := by
    simp [encrypt_file, packU8]
  rw [hfile, decrypt_file]
  simp only [if_neg (show ¬(1 ≠ 1) by simp)]
  rw [List.take_left' h12, List.drop_left' h12]
  simp only [h12, if_neg (show ¬(12 ≠ 12) by simp)]
  rw [List.take_left' (length_packLEu64 _), List.drop_left' (length_packLEu64 _)]
  simp only [length_packLEu64, if_neg (show ¬(8 ≠ 8) by simp)]
  rw [unpackLE_packLEu64 _ hsz, decrypt_chunks_encrypt_chunks]
  simp

end CryptoEngine

/-! ## `app/core/file_processor.py` — `FileProcessor`

The filesystem is modelled explicitly: an input tree is a list of
`FsItem`s (one per entry strictly below the source root, as enumerated by
`rglob("*")`, in arbitrary filesystem order), and an output directory is
a list of `(name, content)` pairs in the order the files were written.
The JSON manifest serialisation (`json.dumps` / `json.loads` +
`FileMetadata(**m)`) is modelled by an injective canonical encoding with
a partial inverse parser. -/

namespace FileProcessor

/-- The `FileMetadata` dataclass. -/
structure FileMetadata where
  relative_path : List Nat
  original_size : Nat
  encrypted_size : Nat
  is_directory : Bool
  permissions : Option Nat
deriving DecidableEq, Repr

/-- UTF-8 bytes of `FileProcessor.METADATA_FILENAME = ".folder_crypto_metadata.enc"`. -/
def METADATA_FILENAME : List Nat :=
  [46, 102, 111, 108, 100, 101, 114, 95, 99, 114, 121, 112, 116, 111, 95,
   109, 101, 116, 97, 100, 97, 116, 97, 46, 101, 110, 99]

/-- UTF-8 bytes of `FileProcessor.ENCRYPTED_EXTENSION = ".encrypted"`. -/
def ENCRYPTED_EXTENSION : List Nat :=
  [46, 101, 110, 99, 114, 121, 112, 116, 101, 100]

/-- Encoding of the optional `permissions` field. -/
def encodeOptNat : Option Nat → Nat
  | none => 0
  | some p => p + 1

/-- Decoding of the optional `permissions` field. -/
def decodeOptNat : Nat → Option Nat
  | 0 => none
  | p + 1 => some p

/-- Canonical encoding of one manifest row (models the JSON object
`{"relative_path": ..., "original_size": ..., "encrypted_size": ...,
"is_directory": ..., "permissions": ...}`). -/
def encodeEntry (m : FileMetadata) : Nat :=
  Nat.pair (encodeMixed m.relative_path)
    (Nat.pair m.original_size
      (Nat.pair m.encrypted_size
        (Nat.pair (cond m.is_directory 1 0) (encodeOptNat m.permissions))))

/-- Decoding of one manifest row; fails on rows that are not in the image
of `encodeEntry` (models `FileMetadata(**m)` raising on a bad object). -/
def decodeEntry (n : Nat) : Option FileMetadata :=
  match decodeMixed n.unpair.1 with
  | none => none
  | some path =>
    let rest := n.unpair.2
    let dirFlag := rest.unpair.2.unpair.2.unpair.1
    if dirFlag ≤ 1 then
      some { relative_path := path
             original_size := rest.unpair.1
             encrypted_size := rest.unpair.2.unpair.1
             is_directory := dirFlag = 1
             permissions := decodeOptNat rest.unpair.2.unpair.2.unpair.2 }
    else none

/-- Decode a list of manifest rows, failing if any row fails. -/
def decodeEntries : List Nat → Option (List FileMetadata)
  | [] => some []
  | c :: cs =>
    match decodeEntry c, decodeEntries cs with
    | some e, some es => some (e :: es)
    | _, _ => none

/-- Canonical byte serialisation of the manifest dictionary
`{"version": v, "files": [...]}` (models `json.dumps(...).encode("utf-8")`). -/
def serializeMetadata (version : Nat) (files : List FileMetadata) : List Nat :=
  [Nat.pair version (encodeMixed (files.map encodeEntry))]

/-- Top-level parse of the manifest bytes (models `json.loads`): recover
the version and the list of raw row objects. -/
def parseMetadataTop : List Nat → Option (Nat × List Nat)
  | [n] =>
    match decodeMixed n.unpair.2 with
    | some codes => some (n.unpair.1, codes)
    | none => none
  | _ => none

theorem decodeEntry_encodeEntry (m : FileMetadata) : decodeEntry (encodeEntry m) = some m := by
  obtain ⟨rp, os, es, d, p⟩ := m
  unfold decodeEntry encodeEntry
  simp only [Nat.unpair_pair, decodeMixed_encodeMixed]
  cases d <;> cases p <;> simp [encodeOptNat, decodeOptNat]

theorem decodeEntries_map_encodeEntry (ms : List FileMetadata) :
    decodeEntries (ms.map encodeEntry) = some ms := by
  induction ms with
  | nil => simp [decodeEntries]
  | cons m ms ih => simp [decodeEntries, decodeEntry_encodeEntry, ih]

theorem parseMetadataTop_serializeMetadata (version : Nat) (files : List FileMetadata) :
    parseMetadataTop (serializeMetadata version files) =
      some (version, files.map encodeEntry) := by
  simp [parseMetadataTop, serializeMetadata, Nat.unpair_pair, decodeMixed_encodeMixed]

/-- Simple first-match lookup of a file name in a written directory
(models `path.exists()` + `open(path, "rb").read()`). -/
def find_file (dir : List (List Nat × List Nat)) (name : List Nat) : Option (List Nat) :=
  match dir with
  | [] => none
  | (n, c) :: rest => if n = name then some c else find_file rest name

/-- `FileProcessor._save_metadata` with the random metadata nonce lifted
to a parameter: the bytes written to `.folder_crypto_metadata.enc`, namely
`nonce || AESGCM(key).encrypt(nonce, manifest_json, b"metadata")`. -/
def save_metadata_bytes (key nonce : List Nat) (metadata_list : List FileMetadata) :
    List Nat :=
  nonce ++ CryptoEngine.encrypt_metadata key (serializeMetadata 1 metadata_list) nonce

/-- dispatch of `except InvalidMetadataError: raise / except Exception as e:
raise InvalidMetadataError(...) from e` in `FileProcessor._load_metadata`. -/
def wrapMeta (e : PyExc) : PyExc :=
  if e.cls = .invalidMetadataError then e else .metaLoadFailed e

/-- `FileProcessor._load_metadata`: find the metadata file, split off the
12-byte nonce, decrypt, parse, check the version, and decode the rows.
No other validation is performed. -/
def load_metadata (key : List Nat) (dir : List (List Nat × List Nat)) :
    Except PyExc (List FileMetadata) :=
  match find_file dir METADATA_FILENAME with
  | none => .error .metaNotFound
  | some fileBytes =>
    let nonce := fileBytes.take 12
    let encrypted_metadata := fileBytes.drop 12
    match CryptoEngine.decrypt_metadata key encrypted_metadata nonce with
    | .error e => .error (wrapMeta e)
    | .ok metadata_bytes =>
      match parseMetadataTop metadata_bytes with
      | none => .error .metaParseFailed
      | some (version, rows) =>
        if version ≠ 1 then .error (.metaUnsupportedVersion version)
        else
          match decodeEntries rows with
          | none => .error .metaParseFailed
          | some metadata_list => .ok metadata_list

end FileProcessor

namespace FileProcessor

/-- One filesystem entry below the source root, as seen by
`Path.rglob("*")`: its relative path (UTF-8 bytes, `/`-separated), whether
it is a directory, its byte content (empty for directories) and its
`stat().st_mode` word. -/
structure FsItem where
  path : List Nat
  isDir : Bool
  content : List Nat
  mode : Nat
deriving DecidableEq, Repr

/-- The ordering used by Python's `sorted` on `Path` objects:
lexicographic comparison of the path strings. -/
def itemLe (a b : FsItem) : Prop := a.path ≤ b.path

instance : DecidableRel itemLe := fun a b => inferInstanceAs (Decidable (a.path ≤ b.path))

instance : IsTotal FsItem itemLe := ⟨fun a b => le_total a.path b.path⟩

instance : IsTrans FsItem itemLe := ⟨fun _ _ _ hab hbc => le_trans hab hbc⟩

/-- `FileProcessor._collect_items`: partition the enumerated entries into
directories and files and return `sorted(directories) + sorted(files)`. -/
def collect_items (items : List FsItem) : List FsItem :=
  List.insertionSort itemLe (items.filter fun i => i.isDir) ++
    List.insertionSort itemLe (items.filter fun i => !i.isDir)

/-- The body of the loop in `FileProcessor.encrypt_folder`, with the
per-file random base nonces lifted to an oracle `nonces` indexed by the
number of files encrypted so far.  Returns the ciphertext files written
(in order) and the accumulated `metadata_list`. -/
def encrypt_items (key : List Nat) (nonces : Nat → List Nat) :
    List FsItem → Nat → List (List Nat × List Nat) × List FileMetadata
  | [], _ => ([], [])
  | item :: rest, fileIdx =>
    if item.isDir then
      ((encrypt_items key nonces rest fileIdx).1,
       { relative_path := item.path, original_size := 0, encrypted_size := 0,
         is_directory := true, permissions := some item.mode } ::
         (encrypt_items key nonces rest fileIdx).2)
    else
      let fileBytes := CryptoEngine.encrypt_file key (nonces fileIdx) item.content item.path
      ((item.path ++ ENCRYPTED_EXTENSION, fileBytes) ::
         (encrypt_items key nonces rest (fileIdx + 1)).1,
       { relative_path := item.path, original_size := item.content.length,
         encrypted_size := fileBytes.length, is_directory := false,
         permissions := some item.mode } :: (encrypt_items key nonces rest (fileIdx + 1)).2)

/-- `FileProcessor.encrypt_folder`: walk the collected items, encrypt
every file, then write the encrypted manifest.  The result is the output
directory as a write-ordered list of `(name, bytes)` pairs. -/
def encrypt_folder (key : List Nat) (nonces : Nat → List Nat) (metaNonce : List Nat)
    (tree : List FsItem) : List (List Nat × List Nat) :=
  (encrypt_items key nonces (collect_items tree) 0).1 ++
    [(METADATA_FILENAME,
      save_metadata_bytes key metaNonce (encrypt_items key nonces (collect_items tree) 0).2)]

/-- One reconstructed output entry of `FileProcessor.decrypt_folder`:
the written path, kind, byte content, and the permission bits actually
applied by `os.chmod` (`none` when restoration was skipped or failed; the
entry then keeps its default creation mode). -/
structure RestoredEntry where
  path : List Nat
  isDir : Bool
  content : List Nat
  mode : Option Nat
deriving DecidableEq, Repr

/-- The `if metadata.permissions: try: os.chmod(...) except Exception:
pass` block: restoration is attempted only for a truthy (non-`None`,
non-zero) mode, and a failing `chmod` (modelled by the `chmodOk` oracle)
is swallowed. -/
def restoreMode (chmodOk : List Nat → Bool) (perms : Option Nat) (path : List Nat) :
    Option Nat :=
  match perms with
  | none => none
  | some p => if p ≠ 0 then (if chmodOk path then some p else none) else none

/-- dispatch of `except FileProcessingError: raise / except Exception as e:
raise FileProcessingError(...) from e` around the per-file decryption in
`FileProcessor.decrypt_folder`. -/
def wrapProc (path : List Nat) (e : PyExc) : PyExc :=
  if e.cls = .fileProcessingError then e else .procDecryptFailed path e

/-- The entry loop of `FileProcessor.decrypt_folder`: recreate
directories, stream-decrypt each file from `<relative>.encrypted`, verify
the decrypted size against `original_size`, and best-effort restore
permissions. -/
def decrypt_entries (key : List Nat) (chmodOk : List Nat → Bool)
    (dir : List (List Nat × List Nat)) :
    List FileMetadata → Except PyExc (List RestoredEntry)
  | [] => .ok []
  | m :: rest =>
    if m.is_directory then
      match decrypt_entries key chmodOk dir rest with
      | .ok out =>
        .ok (⟨m.relative_path, true, [],
          restoreMode chmodOk m.permissions m.relative_path⟩ :: out)
      | .error e => .error e
    else
      match find_file dir (m.relative_path ++ ENCRYPTED_EXTENSION) with
      | none => .error (.procEncryptedFileNotFound m.relative_path)
      | some encBytes =>
        match CryptoEngine.decrypt_file key encBytes m.relative_path with
        | .error e => .error (wrapProc m.relative_path e)
        | .ok content =>
          if content.length ≠ m.original_size then
            .error (.procSizeMismatch m.relative_path m.original_size content.length)
          else
            match decrypt_entries key chmodOk dir rest with
            | .ok out =>
              .ok (⟨m.relative_path, false, content,
                restoreMode chmodOk m.permissions m.relative_path⟩ :: out)
            | .error e => .error e

/-- `FileProcessor.decrypt_folder`: load and decrypt the manifest, then
process its entries in order. -/
def decrypt_folder (key : List Nat) (chmodOk : List Nat → Bool)
    (dir : List (List Nat × List Nat)) : Except PyExc (List RestoredEntry) :=
  match load_metadata key dir with
  | .error e => .error e
  | .ok metadata_list => decrypt_entries key chmodOk dir metadata_list

end FileProcessor

/-! ## `app/core/key_derivation.py` — `KeyDerivation` -/

namespace KeyDerivation

/-- Ideal model of PBKDF2-HMAC-SHA256 (600 000 iterations, 32-byte
output): a 32-entry value whose last entry injectively encodes the
password bytes and the salt. -/
def kdfRaw (password salt : List Nat) : List Nat :=
  List.replicate 31 0 ++ [Nat.pair (encodeMixed password) (encodeMixed salt)]

theorem length_kdfRaw (password salt : List Nat) : (kdfRaw password salt).length = 32 := by
  simp [kdfRaw]

theorem kdfRaw_inj {p s p' s' : List Nat} (h : kdfRaw p s = kdfRaw p' s') :
    p = p' ∧ s = s' := by
  simp only [kdfRaw, List.append_cancel_left_eq, List.cons.injEq, and_true,
    Nat.pair_eq_pair] at h
  exact ⟨encodeMixed_injective h.1, encodeMixed_injective h.2⟩

/-- `KeyDerivation.derive_key` (PBKDF2 branch): reject an empty password
or a salt that is not exactly 32 bytes, else derive the 32-byte key. -/
def derive_key (password salt : List Nat) : Except PyExc (List Nat) :=
  if password = [] then .error .passEmpty
  else if salt = [] ∨ salt.length ≠ 32 then .error .passBadSalt
  else .ok (kdfRaw password salt)

/-- One password character together with the results of the `str`
classification methods used by `verify_password_strength`. -/
structure PwChar where
  isUpper : Bool
  isLower : Bool
  isDigit : Bool
  isAlnum : Bool
deriving DecidableEq, Repr

/-- `KeyDerivation.verify_password_strength`. -/
def verify_password_strength (password : List PwChar) : Bool × String :=
  if password.length < 8 then
    (false, "Password must be at least 8 characters long")
  else if password.length < 12 then
    (true, "Password is weak but acceptable")
  else
    let has_upper := password.any fun c => c.isUpper
    let has_lower := password.any fun c => c.isLower
    let has_digit := password.any fun c => c.isDigit
    let has_special := password.any fun c => !c.isAlnum
    let strength_score :=
      (cond has_upper 1 0) + (cond has_lower 1 0) +
        (cond has_digit 1 0) + (cond has_special 1 0)
    if 3 ≤ strength_score then (true, "Password is strong")
    else if 2 ≤ strength_score then (true, "Password is moderate")
    else (true, "Password is weak but acceptable")

end KeyDerivation

/-! ## `app/services/encrypt_service.py` and `decrypt_service.py` -/

namespace Services

open FileProcessor KeyDerivation

/-- UTF-8 bytes of the salt sidecar name `".salt"`. -/
def SALT_FILENAME : List Nat := [46, 115, 97, 108, 116]

/-- `EncryptService.encrypt_folder` with the generated salt and nonces
lifted to parameters.  `strengthOk` models
`KeyDerivation.verify_password_strength` composed with the caller's
character classification (used only when `verify_password_strength` was
enabled on the service).  On success the returned write-ordered directory
ends with the `.salt` sidecar, written after the ciphertext tree and the
manifest. -/
def encrypt_service (verifyStrength : Bool) (strengthOk : List Nat → Bool)
    (salt : List Nat) (nonces : Nat → List Nat) (metaNonce : List Nat)
    (password : List Nat) (tree : List FsItem) :
    Except PyExc (List (List Nat × List Nat)) :=
  if verifyStrength ∧ ¬ strengthOk password then .error .passWeak
  else
    match derive_key password salt with
    | .error e => .error e
    | .ok key =>
      .ok (encrypt_folder key nonces metaNonce tree ++ [(SALT_FILENAME, salt)])

/-- dispatch of `except (DecryptionError, FileProcessingError): raise /
except Exception as e: raise DecryptionError(...) from e` in
`DecryptService.decrypt_folder`. -/
def wrapSvc (e : PyExc) : PyExc :=
  if e.cls = .decryptionError ∨ e.cls = .fileProcessingError then e
  else .svcDecryptionFailed e

/-- `DecryptService.decrypt_folder`: read `.salt` first (failing if it is
absent or not exactly 32 bytes), derive the key, and run
`FileProcessor.decrypt_folder`, re-wrapping exceptions that are neither
`DecryptionError` nor `FileProcessingError`. -/
def decrypt_service (password : List Nat) (chmodOk : List Nat → Bool)
    (dir : List (List Nat × List Nat)) : Except PyExc (List RestoredEntry) :=
  match find_file dir SALT_FILENAME with
  | none => .error .svcSaltNotFound
  | some salt =>
    if salt.length ≠ 32 then .error .svcInvalidSaltFile
    else
      match derive_key password salt with
      | .error e => .error (.svcInvalidPassword e)
      | .ok key =>
        match decrypt_folder key chmodOk dir with
        | .error e => .error (wrapSvc e)
        | .ok out => .ok out

end Services

/-! ## Helper lemmas for the folder-level theorems -/

namespace FileProcessor

theorem find_file_append_none {d1 d2 : List (List Nat × List Nat)} {name : List Nat}
    (h : find_file d1 name = none) : find_file (d1 ++ d2) name = find_file d2 name := by
  induction d1 with
  | nil => simp
  | cons e rest ih =>
    obtain ⟨n, c⟩ := e
    by_cases hn : n = name
    · simp [find_file, hn] at h
    · rw [List.cons_append]
      simp only [find_file, if_neg hn] at h ⊢
      exact ih h

theorem find_file_append_some {d1 d2 : List (List Nat × List Nat)} {name : List Nat}
    {c : List Nat} (h : find_file d1 name = some c) :
    find_file (d1 ++ d2) name = some c := by
  induction d1 with
  | nil => simp [find_file] at h
  | cons e rest ih =>
    obtain ⟨n, c'⟩ := e
    by_cases hn : n = name
    · simp only [find_file, if_pos hn] at h ⊢
      simpa using h
    · simp only [find_file, if_neg hn, List.cons_append] at h ⊢
      exact ih h

theorem find_file_singleton_ne {n c : List Nat} {name : List Nat} (h : n ≠ name) :
    find_file [(n, c)] name = none := by
  simp [find_file, h]

theorem ext_append_ne_meta (p : List Nat) :
    p ++ ENCRYPTED_EXTENSION ≠ METADATA_FILENAME := by
  intro h
  have hlast := congrArg List.getLast? h
  rw [List.getLast?_append_of_ne_nil p (by simp [ENCRYPTED_EXTENSION])] at hlast
  exact absurd hlast (by decide)

theorem ext_append_ne_salt (p : List Nat) :
    p ++ ENCRYPTED_EXTENSION ≠ Services.SALT_FILENAME := by
  intro h
  have hlen := congrArg List.length h
  simp [ENCRYPTED_EXTENSION, Services.SALT_FILENAME] at hlen

theorem meta_ne_salt : METADATA_FILENAME ≠ Services.SALT_FILENAME := by decide

theorem ext_append_inj {p q : List Nat}
    (h : p ++ ENCRYPTED_EXTENSION = q ++ ENCRYPTED_EXTENSION) : p = q :=
  List.append_cancel_right h

theorem find_file_encrypt_items_none (key : List Nat) (nonces : Nat → List Nat)
    (name : List Nat) (h : ∀ p, p ++ ENCRYPTED_EXTENSION ≠ name) :
    ∀ (items : List FsItem) (k : Nat),
      find_file (encrypt_items key nonces items k).1 name = none := by
  intro items
  induction items with
  | nil => intro k; simp [encrypt_items, find_file]
  | cons item rest ih =>
    intro k
    by_cases hd : item.isDir
    · simpa only [encrypt_items, hd, if_true] using ih k
    · simp only [encrypt_items, hd, if_false]
      simp only [find_file, if_neg (h item.path)]
      exact ih (k + 1)

theorem load_metadata_of_find (key : List Nat) (dir : List (List Nat × List Nat))
    (nonce : List Nat) (ms : List FileMetadata) (h12 : nonce.length = 12)
    (hfind : find_file dir METADATA_FILENAME = some (save_metadata_bytes key nonce ms)) :
    load_metadata key dir = .ok ms := by
  simp only [load_metadata, hfind, save_metadata_bytes]
  rw [List.take_left' h12, List.drop_left' h12,
    CryptoEngine.decrypt_metadata_encrypt_metadata]
  simp [parseMetadataTop_serializeMetadata, decodeEntries_map_encodeEntry]

theorem load_metadata_wrong_key (key key' : List Nat) (dir : List (List Nat × List Nat))
    (nonce : List Nat) (ms : List FileMetadata) (h12 : nonce.length = 12)
    (hne : key' ≠ key)
    (hfind : find_file dir METADATA_FILENAME = some (save_metadata_bytes key nonce ms)) :
    load_metadata key' dir = .error (.metaLoadFailed .decMetadataFailed) := by
  simp only [load_metadata, hfind, save_metadata_bytes]
  rw [List.take_left' h12, List.drop_left' h12,
    CryptoEngine.decrypt_metadata_wrong_key key key' _ nonce hne]
  simp [wrapMeta, PyExc.cls]

end FileProcessor

namespace FileProcessor

theorem find_file_encrypt_items_own (key : List Nat) (nonces : Nat → List Nat) :
    ∀ (items : List FsItem) (k : Nat) (pre post : List (List Nat × List Nat)) (x : FsItem),
    x ∈ items → x.isDir = false → (items.map FsItem.path).Nodup →
    find_file pre (x.path ++ ENCRYPTED_EXTENSION) = none →
    ∃ j, find_file (pre ++ (encrypt_items key nonces items k).1 ++ post)
        (x.path ++ ENCRYPTED_EXTENSION) =
      some (CryptoEngine.encrypt_file key (nonces j) x.content x.path) := by
  intro items
  induction items with
  | nil => intro k pre post x hx; cases hx
  | cons item rest ih =>
    intro k pre post x hx hxf hnd hpre
    have hndTail : (rest.map FsItem.path).Nodup := by
      simpa using hnd.of_cons
    by_cases hd : item.isDir
    · have hxr : x ∈ rest := by
        rcases List.mem_cons.mp hx with h | h
        · subst h; rw [hd] at hxf; cases hxf
        · exact h
      simpa only [encrypt_items, hd, if_true] using ih k pre post x hxr hxf hndTail hpre
    · have hdf : item.isDir = false := by simpa using hd
      simp only [encrypt_items, hdf, Bool.false_eq_true, if_false]
      rcases List.mem_cons.mp hx with hxi | hxr
      · subst hxi
        refine ⟨k, ?_⟩
        rw [List.append_assoc, find_file_append_none hpre, List.cons_append]
        simp [find_file]
      · have hne : item.path ++ ENCRYPTED_EXTENSION ≠ x.path ++ ENCRYPTED_EXTENSION := by
          intro hcontr
          have hpe : item.path = x.path := ext_append_inj hcontr
          have : item.path ∈ rest.map FsItem.path := by
            rw [hpe]
            exact List.mem_map_of_mem _ hxr
          simp only [List.map_cons, List.nodup_cons] at hnd
          exact hnd.1 this
        have hpre' : find_file
            (pre ++ [(item.path ++ ENCRYPTED_EXTENSION,
              CryptoEngine.encrypt_file key (nonces k) item.content item.path)])
            (x.path ++ ENCRYPTED_EXTENSION) = none := by
          rw [find_file_append_none hpre]
          exact find_file_singleton_ne hne
        have := ih (k + 1)
          (pre ++ [(item.path ++ ENCRYPTED_EXTENSION,
            CryptoEngine.encrypt_file key (nonces k) item.content item.path)])
          post x hxr hxf hndTail hpre'
        rcases this with ⟨j, hj⟩
        refine ⟨j, ?_⟩
        rw [List.append_assoc pre, List.singleton_append] at hj
        exact hj

theorem decrypt_entries_encrypt_items (key : List Nat) (nonces : Nat → List Nat)
    (chmodOk : List Nat → Bool) (dir : List (List Nat × List Nat)) :
    ∀ (items : List FsItem) (k : Nat),
    (∀ i ∈ items, i.isDir = true → i.content = []) →
    (∀ i ∈ items, i.content.length < 2 ^ 64) →
    (∀ j, (nonces j).length = 12) →
    (∀ x ∈ items, x.isDir = false →
      ∃ j, find_file dir (x.path ++ ENCRYPTED_EXTENSION) =
        some (CryptoEngine.encrypt_file key (nonces j) x.content x.path)) →
    decrypt_entries key chmodOk dir (encrypt_items key nonces items k).2 =
      .ok (items.map fun i =>
        ⟨i.path, i.isDir, i.content, restoreMode chmodOk (some i.mode) i.path⟩) := by
  intro items
  induction items with
  | nil => intro k _ _ _ _; simp [encrypt_items, decrypt_entries]
  | cons item rest ih =>
    intro k hdirs hlen h12 hfind
    have ihTail : ∀ k', decrypt_entries key chmodOk dir
        (encrypt_items key nonces rest k').2 =
        .ok (rest.map fun i =>
          ⟨i.path, i.isDir, i.content, restoreMode chmodOk (some i.mode) i.path⟩) :=
      fun k' => ih k' (fun i hi => hdirs i (by simp [hi]))
        (fun i hi => hlen i (by simp [hi])) h12
        (fun x hx => hfind x (by simp [hx]))
    by_cases hd : item.isDir
    · simp only [encrypt_items, hd, if_true]
      simp only [decrypt_entries, if_true]
      rw [ihTail k]
      have hco : item.content = [] := hdirs item (by simp) hd
      simp [hd, hco]
    · have hdf : item.isDir = false := by simpa using hd
      obtain ⟨j, hj⟩ := hfind item (by simp) hdf
      simp only [encrypt_items, hdf, Bool.false_eq_true, if_false]
      simp only [decrypt_entries, hdf, Bool.false_eq_true, if_false, hj,
        CryptoEngine.decrypt_file_encrypt_file key (nonces j) item.content item.path
          (h12 j) (hlen item (by simp)), ihTail (k + 1)]
      simp [hdf]

end FileProcessor

namespace FileProcessor

theorem collect_items_perm (l : List FsItem) : List.Perm (collect_items l) l := by
  unfold collect_items
  refine List.Perm.trans (List.Perm.append ?_ ?_) (List.filter_append_perm (fun i => i.isDir) l)
  · exact List.perm_insertionSort itemLe _
  · exact List.perm_insertionSort itemLe _

theorem encrypt_items_paths (key : List Nat) (nonces : Nat → List Nat) :
    ∀ (items : List FsItem) (k : Nat),
      ((encrypt_items key nonces items k).2).map (fun m => m.relative_path) =
        items.map FsItem.path := by
  intro items
  induction items with
  | nil => intro k; simp [encrypt_items]
  | cons item rest ih =>
    intro k
    by_cases hd : item.isDir
    · simp [encrypt_items, hd, ih k]
    · have hdf : item.isDir = false := by simpa using hd
      simp [encrypt_items, hdf, ih (k + 1)]

theorem sorted_eq_of_perm_nodup_paths :
    ∀ (l₁ l₂ : List FsItem), l₁.Sorted itemLe → l₂.Sorted itemLe → List.Perm l₁ l₂ →
      ((l₁.map FsItem.path).Nodup) → l₁ = l₂ := by
  intro l₁
  induction l₁ with
  | nil =>
    intro l₂ _ _ hp _
    exact List.Perm.nil_eq hp
  | cons a t₁ ih =>
    intro l₂ hs₁ hs₂ hp hnd
    match l₂ with
    | [] => exact absurd (List.Perm.nil_eq hp.symm) (by simp)
    | b :: t₂ =>
      have hab : a = b := by
        by_contra hne
        have ha2 : a ∈ b :: t₂ := hp.mem_iff.mp (by simp)
        have hb1 : b ∈ a :: t₁ := hp.symm.mem_iff.mp (by simp)
        have hat2 : a ∈ t₂ := by
          rcases List.mem_cons.mp ha2 with h | h
          · exact absurd h hne
          · exact h
        have hbt1 : b ∈ t₁ := by
          rcases List.mem_cons.mp hb1 with h | h
          · exact absurd h.symm hne
          · exact h
        have hle1 : itemLe a b := List.rel_of_sorted_cons hs₁ b hbt1
        have hle2 : itemLe b a := List.rel_of_sorted_cons hs₂ a hat2
        have hpeq : a.path = b.path := le_antisymm hle1 hle2
        have : a.path ∈ t₁.map FsItem.path := by
          rw [hpeq]
          exact List.mem_map_of_mem _ hbt1
        simp only [List.map_cons, List.nodup_cons] at hnd
        exact hnd.1 this
      subst hab
      have ht : t₁ = t₂ :=
        ih t₂ hs₁.of_cons hs₂.of_cons (hp.cons_inv)
          (by simpa using hnd.of_cons)
      rw [ht]

end FileProcessor

namespace FileProcessor

/-- The tree entry that `decrypt_folder` recreates for a source item when
every `chmod` succeeds. -/
def FsItem.restored (i : FsItem) : RestoredEntry :=
  ⟨i.path, i.isDir, i.content, some i.mode⟩

end FileProcessor

namespace Services

open FileProcessor KeyDerivation

theorem derive_key_ok (password salt : List Nat) (hp : password ≠ []) (hs : salt.length = 32) :
    derive_key password salt = .ok (kdfRaw password salt) := by
  unfold derive_key
  rw [if_neg hp, if_neg]
  intro hcontr
  rcases hcontr with h | h
  · rw [h] at hs; simp at hs
  · exact h hs

theorem c1_infra (password salt metaNonce : List Nat) (nonces : Nat → List Nat)
    (tree : List FsItem)
    (hp : password ≠ []) (hs : salt.length = 32) (hmn : metaNonce.length = 12)
    (hn : ∀ j, (nonces j).length = 12)
    (hnd : (tree.map FsItem.path).Nodup)
    (hdc : ∀ i ∈ tree, i.isDir = true → i.content = [])
    (hm : ∀ i ∈ tree, i.mode ≠ 0)
    (hlen : ∀ i ∈ tree, i.content.length < 2 ^ 64) :
    decrypt_service password (fun _ => true)
        (encrypt_folder (kdfRaw password salt) nonces metaNonce tree ++
          [(SALT_FILENAME, salt)]) =
      .ok ((collect_items tree).map FsItem.restored) := by
  have hkeyDef : derive_key password salt = .ok (kdfRaw password salt) :=
    derive_key_ok password salt hp hs
  generalize hK : kdfRaw password salt = key at *
  have hsalt : find_file
      (encrypt_folder key nonces metaNonce tree ++ [(SALT_FILENAME, salt)])
      SALT_FILENAME = some salt := by
    unfold encrypt_folder
    rw [List.append_assoc]
    rw [find_file_append_none
      (find_file_encrypt_items_none key nonces SALT_FILENAME
        (fun p => ext_append_ne_salt p) (collect_items tree) 0)]
    simp [find_file, meta_ne_salt]
  have hfindMeta : find_file
      (encrypt_folder key nonces metaNonce tree ++ [(SALT_FILENAME, salt)])
      METADATA_FILENAME =
      some (save_metadata_bytes key metaNonce
        (encrypt_items key nonces (collect_items tree) 0).2) := by
    unfold encrypt_folder
    rw [List.append_assoc]
    rw [find_file_append_none
      (find_file_encrypt_items_none key nonces METADATA_FILENAME
        (fun p => ext_append_ne_meta p) (collect_items tree) 0)]
    simp [find_file]
  have hload := load_metadata_of_find key
    (encrypt_folder key nonces metaNonce tree ++ [(SALT_FILENAME, salt)])
    metaNonce (encrypt_items key nonces (collect_items tree) 0).2 hmn hfindMeta
  have hndColl : ((collect_items tree).map FsItem.path).Nodup :=
    (List.Perm.nodup_iff ((collect_items_perm tree).map FsItem.path)).mpr hnd
  have hmemColl : ∀ i : FsItem, i ∈ collect_items tree → i ∈ tree :=
    fun i hi => (collect_items_perm tree).mem_iff.mp hi
  have hfindOwn : ∀ x ∈ collect_items tree, x.isDir = false →
      ∃ j, find_file
          (encrypt_folder key nonces metaNonce tree ++ [(SALT_FILENAME, salt)])
          (x.path ++ ENCRYPTED_EXTENSION) =
        some (CryptoEngine.encrypt_file key (nonces j) x.content x.path) := by
    intro x hx hxf
    have hB := find_file_encrypt_items_own key nonces (collect_items tree) 0
      []
      [(METADATA_FILENAME, save_metadata_bytes key metaNonce
        (encrypt_items key nonces (collect_items tree) 0).2),
       (SALT_FILENAME, salt)]
      x hx hxf hndColl (by simp [find_file])
    rcases hB with ⟨j, hj⟩
    refine ⟨j, ?_⟩
    rw [List.nil_append] at hj
    unfold encrypt_folder
    rw [List.append_assoc]
    simpa using hj
  have hentries := decrypt_entries_encrypt_items key nonces (fun _ => true)
    (encrypt_folder key nonces metaNonce tree ++ [(SALT_FILENAME, salt)])
    (collect_items tree) 0
    (fun i hi => hdc i (hmemColl i hi))
    (fun i hi => hlen i (hmemColl i hi))
    hn hfindOwn
  have hmap : (collect_items tree).map
      (fun i => (⟨i.path, i.isDir, i.content,
        restoreMode (fun _ => true) (some i.mode) i.path⟩ : RestoredEntry)) =
      (collect_items tree).map FsItem.restored :=
    List.map_congr_left (fun i hi => by
      have hm0 : i.mode ≠ 0 := hm i (hmemColl i hi)
      simp [restoreMode, FsItem.restored, hm0])
  have hfold : decrypt_folder key (fun _ => true)
      (encrypt_folder key nonces metaNonce tree ++ [(SALT_FILENAME, salt)]) =
      .ok ((collect_items tree).map FsItem.restored) := by
    unfold decrypt_folder
    simp only [hload]
    rw [hentries, hmap]
  unfold decrypt_service
  simp only [hsalt]
  rw [if_neg (by simp [hs])]
  simp only [hkeyDef, hfold]

end Services

namespace Services

open FileProcessor KeyDerivation

theorem find_salt_in_output (key : List Nat) (nonces : Nat → List Nat)
    (metaNonce salt : List Nat) (tree : List FsItem) :
    find_file (encrypt_folder key nonces metaNonce tree ++ [(SALT_FILENAME, salt)])
      SALT_FILENAME = some salt := by
  unfold encrypt_folder
  rw [List.append_assoc]
  rw [find_file_append_none
    (find_file_encrypt_items_none key nonces SALT_FILENAME
      (fun p => ext_append_ne_salt p) (collect_items tree) 0)]
  simp [find_file, meta_ne_salt]

theorem find_meta_in_output (key : List Nat) (nonces : Nat → List Nat)
    (metaNonce salt : List Nat) (tree : List FsItem) :
    find_file (encrypt_folder key nonces metaNonce tree ++ [(SALT_FILENAME, salt)])
      METADATA_FILENAME =
      some (save_metadata_bytes key metaNonce
        (encrypt_items key nonces (collect_items tree) 0).2) := by
  unfold encrypt_folder
  rw [List.append_assoc]
  rw [find_file_append_none
    (find_file_encrypt_items_none key nonces METADATA_FILENAME
      (fun p => ext_append_ne_meta p) (collect_items tree) 0)]
  simp [find_file]

end Services

namespace CryptoEngine

theorem decrypt_chunks_zero_len (key nonce ad : List Nat) :
    decrypt_chunks key nonce ad [0, 0, 0, 0] 0 =
      .error .decWrongPasswordOrCorrupted := by
  rw [decrypt_chunks, dif_neg (by simp)]
  norm_num [unpackLE, aesgcmDecrypt]

theorem decrypt_file_zero_len_chunk (key nonce size8 ad : List Nat)
    (h12 : nonce.length = 12) (h8 : size8.length = 8) :
    decrypt_file key (1 :: (nonce ++ (size8 ++ [0, 0, 0, 0]))) ad =
      .error .decWrongPasswordOrCorrupted := by
  rw [decrypt_file]
  simp only [if_neg (show ¬(1 ≠ 1) by simp)]
  rw [List.take_left' h12, List.drop_left' h12]
  simp only [h12, if_neg (show ¬(12 ≠ 12) by simp)]
  rw [List.take_left' h8, List.drop_left' h8]
  simp only [h8, if_neg (show ¬(8 ≠ 8) by simp)]
  simp only [decrypt_chunks_zero_len]

theorem decrypt_chunks_oversize (key nonce ad body : List Nat)
    (hlt : body.length < 65553) :
    decrypt_chunks key nonce ad (packLEu32 65553 ++ body) 0 =
      .error .decCorruptedChunkData := by
  rw [decrypt_chunks]
  rw [dif_neg (by simp [packLEu32])]
  rw [if_neg (by simp [packLEu32])]
  rw [List.take_left' (length_packLEu32 _), List.drop_left' (length_packLEu32 _)]
  rw [unpackLE_packLEu32 65553 (by norm_num)]
  rw [if_pos hlt]

theorem decrypt_file_oversize_chunk (key nonce size8 ad body : List Nat)
    (h12 : nonce.length = 12) (h8 : size8.length = 8) (hlt : body.length < 65553) :
    decrypt_file key (1 :: (nonce ++ (size8 ++ (packLEu32 65553 ++ body)))) ad =
      .error .decCorruptedChunkData := by
  rw [decrypt_file]
  simp only [if_neg (show ¬(1 ≠ 1) by simp)]
  rw [List.take_left' h12, List.drop_left' h12]
  simp only [h12, if_neg (show ¬(12 ≠ 12) by simp)]
  rw [List.take_left' h8, List.drop_left' h8]
  simp only [h8, if_neg (show ¬(8 ≠ 8) by simp)]
  simp only [decrypt_chunks_oversize key nonce ad body hlt]

end CryptoEngine

namespace KeyDerivation

theorem verify_password_strength_fst (password : List PwChar) :
    (verify_password_strength password).1 = decide (8 ≤ password.length) := by
  unfold verify_password_strength
  by_cases h1 : password.length < 8
  · simp only [h1, if_true]
    simp
    omega
  · by_cases h2 : password.length < 12
    · simp only [h1, h2, if_false, if_true]
      simp
      omega
    · simp only [h1, h2, if_false]
      split_ifs <;> simp <;> omega

end KeyDerivation

namespace FileProcessor

/-- The on-disk observables of a restored entry: path, kind, content
(everything except the applied permission bits). -/
def RestoredEntry.written (e : RestoredEntry) : List Nat × Bool × List Nat :=
  (e.path, e.isDir, e.content)

end FileProcessor

/-! ## Claim theorems -/

/-- **C3**: for every n ≥ 0, encrypting a file of exactly n plaintext
bytes produces a ciphertext of exactly
`21 + ⌈n/65536⌉·4 + n + ⌈n/65536⌉·16` bytes (with `⌈n/65536⌉` written as
`(n + 65535) / 65536`); in particular an empty file produces only the
21-byte header (`[version] ++ nonce ++ le_u64(0)`) and zero chunk
records. -/
theorem c3_encrypt_file_size (key nonce pt ad : List Nat) (h12 : nonce.length = 12) :
    (CryptoEngine.encrypt_file key nonce pt ad).length =
      21 + ((pt.length + 65535) / 65536) * 4 + pt.length +
        ((pt.length + 65535) / 65536) * 16 ∧
    (pt = [] → CryptoEngine.encrypt_file key nonce pt ad =
      CryptoEngine.packU8 1 ++ nonce ++ CryptoEngine.packLEu64 0) := by
  constructor
  · simp [CryptoEngine.encrypt_file, CryptoEngine.packU8,
      CryptoEngine.length_packLEu64, CryptoEngine.length_encrypt_chunks, h12]
    omega
  · intro h
    subst h
    simp [CryptoEngine.encrypt_file, CryptoEngine.encrypt_chunks_nil]

/-- Witness for C3 at a concrete 3-byte file: `21 + 4 + 3 + 16 = 44`. -/
theorem c3_witness :
    (List.replicate 12 0 : List Nat).length = 12 ∧
    (CryptoEngine.encrypt_file [] (List.replicate 12 0) [10, 20, 30] []).length = 44 := by
  refine ⟨by simp, ?_⟩
  have h := (c3_encrypt_file_size [] (List.replicate 12 0) [10, 20, 30] [] (by simp)).1
  norm_num at h
  exact h

/-- **C4**: for every 12-byte base nonce `b` and chunk index `i < 2^64`,
`_derive_chunk_nonce` returns `b` with the little-endian u64 encoding of
`i` XORed bytewise into `b`'s last 8 bytes (byte `k` into `b[4+k]`) and
`b`'s first 4 bytes unchanged.  `encrypt_file` and `decrypt_file` both
call this same function for chunk `i`; the final conjunct exhibits the
sealed chunk of `encrypt_chunks` using exactly this nonce (its
`decrypt_chunks` counterpart opens with the same expression by
definition). -/
theorem c4_derive_chunk_nonce_spec (b : List Nat) (i : Nat)
    (hb : b.length = 12) (hi : i < 2 ^ 64) :
    CryptoEngine.derive_chunk_nonce b i =
      b.take 4 ++ List.zipWith (fun x y => x ^^^ y) (b.drop 4)
        (CryptoEngine.packLEu64 i) ∧
    CryptoEngine.unpackLE (CryptoEngine.packLEu64 i) = i ∧
    (CryptoEngine.derive_chunk_nonce b i).take 4 = b.take 4 ∧
    (∀ key ad pt, pt ≠ [] →
      CryptoEngine.encrypt_chunks key b ad pt i =
        CryptoEngine.packLEu32
            (aesgcmEncrypt key (CryptoEngine.derive_chunk_nonce b i) (pt.take 65536)
              (ad ++ CryptoEngine.packLEu64 i)).length ++
          aesgcmEncrypt key (CryptoEngine.derive_chunk_nonce b i) (pt.take 65536)
            (ad ++ CryptoEngine.packLEu64 i) ++
          CryptoEngine.encrypt_chunks key b ad (pt.drop 65536) (i + 1)) := by
  have hmain : CryptoEngine.derive_chunk_nonce b i =
      b.take 4 ++ List.zipWith (fun x y => x ^^^ y) (b.drop 4)
        (CryptoEngine.packLEu64 i) := by
    unfold CryptoEngine.derive_chunk_nonce
    apply List.ext_getElem
    · simp [hb, CryptoEngine.packLEu64]
    · intro j hj1 hj2
      simp only [List.length_map, List.length_range, hb] at hj1
      simp only [List.getElem_map, List.getElem_range, hb]
      by_cases hj4 : j < 4
      · rw [if_neg (by omega)]
        rw [List.getElem_append_left (by simp [hb]; omega)]
        rw [List.getElem_take]
        rw [List.getD_eq_getElem _ _ (by omega)]
      · rw [if_pos (by omega)]
        rw [List.getElem_append_right (by simp [hb]; omega)]
        rw [List.getElem_zipWith]
        rw [List.getElem_drop]
        rw [List.getD_eq_getElem _ _ (by omega),
            List.getD_eq_getElem _ _ (by simp [CryptoEngine.packLEu64]; omega)]
        simp [hb]
        congr 1
        omega
  refine ⟨hmain, CryptoEngine.unpackLE_packLEu64 i hi, ?_, ?_⟩
  · rw [hmain]
    rw [List.take_left' (by simp [List.length_take, hb])]
  · intro key ad pt hpt
    rw [CryptoEngine.encrypt_chunks, dif_neg hpt]

/-- Witness for C4 at `b = [0,…,11]`, `i = 5`. -/
theorem c4_witness :
    ([0, 1, 2, 3, 4, 5, 6, 7, 8, 9, 10, 11] : List Nat).length = 12 ∧ 5 < 2 ^ 64 ∧
    CryptoEngine.derive_chunk_nonce [0, 1, 2, 3, 4, 5, 6, 7, 8, 9, 10, 11] 5 =
      [0, 1, 2, 3] ++ List.zipWith (fun x y => x ^^^ y) [4, 5, 6, 7, 8, 9, 10, 11]
        (CryptoEngine.packLEu64 5) :=
  ⟨by decide, by norm_num,
    (c4_derive_chunk_nonce_spec [0, 1, 2, 3, 4, 5, 6, 7, 8, 9, 10, 11] 5
      (by decide) (by norm_num)).1⟩

/-- **C5** (amended): on decrypt, `_load_metadata` checks only that the
manifest decrypts, parses, and declares version 1; it performs no
validation of `relative_path` (empty, absolute, `..`, reserved names are
all accepted) and allows duplicate `relative_path`s: every entry list
that was sealed under the same key is returned unchanged. -/
theorem c5_no_manifest_validation (key nonce : List Nat)
    (ms : List FileProcessor.FileMetadata) (h12 : nonce.length = 12) :
    FileProcessor.load_metadata key
      [(FileProcessor.METADATA_FILENAME,
        FileProcessor.save_metadata_bytes key nonce ms)] = .ok ms :=
  FileProcessor.load_metadata_of_find key _ nonce ms h12
    (by simp [FileProcessor.find_file])

/-- Witness for C5 (amended) at a concrete manifest. -/
theorem c5_witness :
    (List.replicate 12 0 : List Nat).length = 12 ∧
    FileProcessor.load_metadata (List.replicate 32 0)
      [(FileProcessor.METADATA_FILENAME,
        FileProcessor.save_metadata_bytes (List.replicate 32 0) (List.replicate 12 0)
          [⟨[97], 1, 2, false, some 420⟩])] = .ok [⟨[97], 1, 2, false, some 420⟩] :=
  ⟨by simp,
    c5_no_manifest_validation (List.replicate 32 0) (List.replicate 12 0)
      [⟨[97], 1, 2, false, some 420⟩] (by simp)⟩

/-- Counterexample to C5 as stated: a manifest whose two entries share
the `relative_path` `".."` (bytes `[46, 46]`, a dot-dot component) is
accepted by `_load_metadata` and returned as-is, instead of raising
`MetadataInvalid`. -/
theorem c5_counterexample :
    FileProcessor.load_metadata (List.replicate 32 0)
      [(FileProcessor.METADATA_FILENAME,
        FileProcessor.save_metadata_bytes (List.replicate 32 0) (List.replicate 12 0)
          [⟨[46, 46], 0, 0, true, some 448⟩, ⟨[46, 46], 0, 0, true, some 448⟩])] =
      .ok [⟨[46, 46], 0, 0, true, some 448⟩, ⟨[46, 46], 0, 0, true, some 448⟩] ∧
    ¬ (([⟨[46, 46], 0, 0, true, some 448⟩, ⟨[46, 46], 0, 0, true, some 448⟩] :
        List FileProcessor.FileMetadata).map
          (fun m => m.relative_path)).Nodup :=
  ⟨FileProcessor.load_metadata_of_find (List.replicate 32 0) _ (List.replicate 12 0) _
      (by simp) (by simp [FileProcessor.find_file]),
    by decide⟩

/-- **C6** (amended): `decrypt_file` performs no explicit bounds check on
a chunk record's declared length.  A declared length of zero makes the
empty chunk fail AEAD opening, so it surfaces as the
wrong-password/tampered `DecryptionError`, not as a malformed-input
error; a declared length greater than 64 KiB + 16 (here 65553) is
rejected as corrupted chunk data only because the file then ends before
the declared chunk does. -/
theorem c6_chunk_length_edge_cases :
    (∀ key nonce size8 ad : List Nat, nonce.length = 12 → size8.length = 8 →
      CryptoEngine.decrypt_file key (1 :: (nonce ++ (size8 ++ [0, 0, 0, 0]))) ad =
        .error .decWrongPasswordOrCorrupted) ∧
    (∀ key nonce size8 ad body : List Nat, nonce.length = 12 → size8.length = 8 →
      body.length < 65553 →
      CryptoEngine.decrypt_file key
        (1 :: (nonce ++ (size8 ++ (CryptoEngine.packLEu32 65553 ++ body)))) ad =
        .error .decCorruptedChunkData) :=
  ⟨fun key nonce size8 ad h12 h8 =>
      CryptoEngine.decrypt_file_zero_len_chunk key nonce size8 ad h12 h8,
    fun key nonce size8 ad body h12 h8 hlt =>
      CryptoEngine.decrypt_file_oversize_chunk key nonce size8 ad body h12 h8 hlt⟩

/-- Witness for C6 (amended) at concrete inputs. -/
theorem c6_witness :
    CryptoEngine.decrypt_file (List.replicate 32 0)
      (1 :: (List.replicate 12 0 ++ (List.replicate 8 0 ++ [0, 0, 0, 0]))) [] =
      .error .decWrongPasswordOrCorrupted :=
  c6_chunk_length_edge_cases.1 (List.replicate 32 0) (List.replicate 12 0)
    (List.replicate 8 0) [] (by simp) (by simp)

/-- Counterexample to C6 as stated: the zero-length chunk record is
reported with `PyExc.decWrongPasswordOrCorrupted` — the very
`DecryptionError` raised on AEAD authentication failure — and not with
either malformed-chunk error. -/
theorem c6_counterexample :
    CryptoEngine.decrypt_file (List.replicate 32 0)
      (1 :: (List.replicate 12 0 ++ (List.replicate 8 0 ++ [0, 0, 0, 0]))) [1] =
      .error .decWrongPasswordOrCorrupted ∧
    PyExc.decWrongPasswordOrCorrupted ≠ PyExc.decCorruptedChunkSize ∧
    PyExc.decWrongPasswordOrCorrupted ≠ PyExc.decCorruptedChunkData :=
  ⟨CryptoEngine.decrypt_file_zero_len_chunk (List.replicate 32 0) (List.replicate 12 0)
      (List.replicate 8 0) [1] (by simp) (by simp),
    by decide, by decide⟩

/-- **C10**: `verify_password_strength` accepts a password iff it has at
least 8 characters; character composition never influences acceptance
(passwords of equal length are accepted or rejected together), and for
passwords of 8–11 characters the message is always the fixed weak-tier
message regardless of composition. -/
theorem c10_password_strength_acceptance (password : List KeyDerivation.PwChar) :
    ((KeyDerivation.verify_password_strength password).1 = true ↔
      8 ≤ password.length) ∧
    (∀ password' : List KeyDerivation.PwChar,
      password.length = password'.length →
      (KeyDerivation.verify_password_strength password).1 =
        (KeyDerivation.verify_password_strength password').1) ∧
    (8 ≤ password.length → password.length < 12 →
      (KeyDerivation.verify_password_strength password).2 =
        "Password is weak but acceptable") := by
  refine ⟨?_, ?_, ?_⟩
  · rw [KeyDerivation.verify_password_strength_fst]
    simp
  · intro password' hlen
    rw [KeyDerivation.verify_password_strength_fst,
      KeyDerivation.verify_password_strength_fst, hlen]
  · intro h8 h12
    unfold KeyDerivation.verify_password_strength
    rw [if_neg (by omega), if_pos h12]

/-- Witness for C10: a 9-character password consisting only of
non-alphanumeric characters is accepted. -/
theorem c10_witness :
    8 ≤ (List.replicate 9 (⟨false, false, false, false⟩ : KeyDerivation.PwChar)).length ∧
    (KeyDerivation.verify_password_strength
      (List.replicate 9 (⟨false, false, false, false⟩ : KeyDerivation.PwChar))).1 = true :=
  ⟨by simp,
    (c10_password_strength_acceptance
      (List.replicate 9 ⟨false, false, false, false⟩)).1.mpr (by simp)⟩

namespace FileProcessor

theorem decrypt_entries_chmod_independent (key : List Nat)
    (dir : List (List Nat × List Nat)) (o₁ o₂ : List Nat → Bool) :
    ∀ ms : List FileMetadata,
      (decrypt_entries key o₁ dir ms).map (List.map RestoredEntry.written) =
        (decrypt_entries key o₂ dir ms).map (List.map RestoredEntry.written) := by
  intro ms
  induction ms with
  | nil => rfl
  | cons m rest ih =>
    by_cases hd : m.is_directory
    · simp only [decrypt_entries, hd, if_true]
      cases h1 : decrypt_entries key o₁ dir rest with
      | error e1 =>
        cases h2 : decrypt_entries key o₂ dir rest with
        | error e2 =>
          rw [h1, h2] at ih
          simpa [Except.map] using ih
        | ok l2 =>
          rw [h1, h2] at ih
          simp [Except.map] at ih
      | ok l1 =>
        cases h2 : decrypt_entries key o₂ dir rest with
        | error e2 =>
          rw [h1, h2] at ih
          simp [Except.map] at ih
        | ok l2 =>
          rw [h1, h2] at ih
          simp only [Except.map, Except.ok.injEq] at ih ⊢
          simp [RestoredEntry.written, ih]
    · have hdf : m.is_directory = false := by simpa using hd
      cases hf : find_file dir (m.relative_path ++ ENCRYPTED_EXTENSION) with
      | none => simp only [decrypt_entries, hdf, Bool.false_eq_true, if_false, hf]
      | some enc =>
        cases hdec : CryptoEngine.decrypt_file key enc m.relative_path with
        | error e =>
          simp only [decrypt_entries, hdf, Bool.false_eq_true, if_false, hf, hdec]
        | ok content =>
          by_cases hsz : content.length ≠ m.original_size
          · simp only [decrypt_entries, hdf, Bool.false_eq_true, if_false, hf, hdec,
              if_pos hsz]
          · simp only [decrypt_entries, hdf, Bool.false_eq_true, if_false, hf, hdec,
              if_neg hsz]
            cases h1 : decrypt_entries key o₁ dir rest with
            | error e1 =>
              cases h2 : decrypt_entries key o₂ dir rest with
              | error e2 =>
                rw [h1, h2] at ih
                simpa [Except.map] using ih
              | ok l2 =>
                rw [h1, h2] at ih
                simp [Except.map] at ih
            | ok l1 =>
              cases h2 : decrypt_entries key o₂ dir rest with
              | error e2 =>
                rw [h1, h2] at ih
                simp [Except.map] at ih
              | ok l2 =>
                rw [h1, h2] at ih
                simp only [Except.map, Except.ok.injEq] at ih ⊢
                simp [RestoredEntry.written, ih]

theorem decrypt_folder_chmod_independent (key : List Nat)
    (dir : List (List Nat × List Nat)) (o₁ o₂ : List Nat → Bool) :
    (decrypt_folder key o₁ dir).map (List.map RestoredEntry.written) =
      (decrypt_folder key o₂ dir).map (List.map RestoredEntry.written) := by
  unfold decrypt_folder
  cases h : load_metadata key dir with
  | error e => rfl
  | ok ms => exact decrypt_entries_chmod_independent key dir o₁ o₂ ms

end FileProcessor

open FileProcessor KeyDerivation Services in
/-- **C1**: for every directory tree and non-empty password, decrypting
(with the same password) the output of the encrypt service reproduces the
tree byte-for-byte — every directory, every file's content, and (with
`chmod` succeeding, i.e. best-effort) every recorded permission word —
up to the canonical directories-first manifest order, which is a
permutation of the input tree.  Hypotheses: distinct relative paths,
directories carry no content, `st_mode` words are nonzero (always true of
real `stat` results), file sizes fit in a u64, and the generated salt and
nonces have their generated lengths. -/
theorem c1_encrypt_decrypt_round_trip
    (password salt metaNonce : List Nat) (nonces : Nat → List Nat)
    (strengthOk : List Nat → Bool) (tree : List FsItem)
    (hp : password ≠ []) (hs : salt.length = 32) (hmn : metaNonce.length = 12)
    (hn : ∀ j, (nonces j).length = 12)
    (hnd : (tree.map FsItem.path).Nodup)
    (hdc : ∀ i ∈ tree, i.isDir = true → i.content = [])
    (hm : ∀ i ∈ tree, i.mode ≠ 0)
    (hlen : ∀ i ∈ tree, i.content.length < 2 ^ 64) :
    ∃ dir,
      encrypt_service false strengthOk salt nonces metaNonce password tree = .ok dir ∧
      decrypt_service password (fun _ => true) dir =
        .ok ((collect_items tree).map FsItem.restored) ∧
      List.Perm ((collect_items tree).map FsItem.restored)
        (tree.map FsItem.restored) := by
  refine ⟨encrypt_folder (kdfRaw password salt) nonces metaNonce tree ++
      [(SALT_FILENAME, salt)], ?_, ?_, ?_⟩
  · unfold encrypt_service
    rw [if_neg (by simp)]
    simp only [derive_key_ok password salt hp hs]
  · exact c1_infra password salt metaNonce nonces tree hp hs hmn hn hnd hdc hm hlen
  · exact (collect_items_perm tree).map FsItem.restored

open FileProcessor in
/-- Witness for C1: a one-file tree (`"a"` ↦ bytes `hi`, mode 420) with a
3-byte password round-trips. -/
theorem c1_witness :
    ∃ dir,
      Services.encrypt_service false (fun _ => true) (List.replicate 32 7)
          (fun _ => List.replicate 12 5) (List.replicate 12 3) [97, 98, 99]
          [⟨[97], false, [104, 105], 420⟩] = .ok dir ∧
      Services.decrypt_service [97, 98, 99] (fun _ => true) dir =
        .ok ((collect_items [⟨[97], false, [104, 105], 420⟩]).map FsItem.restored) ∧
      List.Perm ((collect_items [⟨[97], false, [104, 105], 420⟩]).map FsItem.restored)
        ([⟨[97], false, [104, 105], 420⟩].map FsItem.restored) :=
  c1_encrypt_decrypt_round_trip [97, 98, 99] (List.replicate 32 7) (List.replicate 12 3)
    (fun _ => List.replicate 12 5) (fun _ => true) [⟨[97], false, [104, 105], 420⟩]
    (by decide) (by simp) (by simp) (fun _ => by simp)
    (by decide) (by decide) (by decide) (by decide)

open FileProcessor KeyDerivation Services in
/-- **C2** (amended): decrypting with a different password makes the
manifest's AEAD check fail.  `CryptoEngine.decrypt_metadata` raises the
wrong-password `DecryptionError`, but `FileProcessor._load_metadata`
re-wraps it into `InvalidMetadataError` (the `MetadataInvalid` kind), so
callers of `FileProcessor.decrypt_folder` observe `MetadataInvalid`;
the decrypt service then re-wraps that into its own `DecryptionError`,
so only the outermost service call reports the wrong-password class. -/
theorem c2_wrong_password_error_kinds
    (password password' salt metaNonce : List Nat) (nonces : Nat → List Nat)
    (tree : List FsItem)
    (hp : password ≠ []) (hp' : password' ≠ []) (hne : password' ≠ password)
    (hs : salt.length = 32) (hmn : metaNonce.length = 12) :
    load_metadata (kdfRaw password' salt)
      (encrypt_folder (kdfRaw password salt) nonces metaNonce tree ++
        [(SALT_FILENAME, salt)]) =
      .error (.metaLoadFailed .decMetadataFailed) ∧
    (PyExc.metaLoadFailed .decMetadataFailed).cls = ExcClass.invalidMetadataError ∧
    decrypt_service password' (fun _ => true)
      (encrypt_folder (kdfRaw password salt) nonces metaNonce tree ++
        [(SALT_FILENAME, salt)]) =
      .error (.svcDecryptionFailed (.metaLoadFailed .decMetadataFailed)) ∧
    (PyExc.svcDecryptionFailed (.metaLoadFailed .decMetadataFailed)).cls =
      ExcClass.decryptionError ∧
    PyExc.decMetadataFailed.cls = ExcClass.decryptionError := by
  have hkne : kdfRaw password' salt ≠ kdfRaw password salt := by
    intro h
    exact hne (kdfRaw_inj h).1
  have hload := load_metadata_wrong_key (kdfRaw password salt) (kdfRaw password' salt)
    (encrypt_folder (kdfRaw password salt) nonces metaNonce tree ++
      [(SALT_FILENAME, salt)])
    metaNonce (encrypt_items (kdfRaw password salt) nonces (collect_items tree) 0).2
    hmn hkne
    (find_meta_in_output (kdfRaw password salt) nonces metaNonce salt tree)
  refine ⟨hload, rfl, ?_, rfl, rfl⟩
  have hfold : decrypt_folder (kdfRaw password' salt) (fun _ => true)
      (encrypt_folder (kdfRaw password salt) nonces metaNonce tree ++
        [(SALT_FILENAME, salt)]) =
      .error (.metaLoadFailed .decMetadataFailed) := by
    unfold decrypt_folder
    simp only [hload]
  unfold decrypt_service
  simp only [find_salt_in_output (kdfRaw password salt) nonces metaNonce salt tree]
  rw [if_neg (by simp [hs])]
  simp only [derive_key_ok password' salt hp' hs, hfold]
  simp [wrapSvc, PyExc.cls]

open FileProcessor in
/-- Witness for C2 (amended) at a concrete one-entry tree and passwords
`"a"` / `"b"`. -/
theorem c2_witness :
    load_metadata (KeyDerivation.kdfRaw [98] (List.replicate 32 7))
      (encrypt_folder (KeyDerivation.kdfRaw [97] (List.replicate 32 7))
          (fun _ => List.replicate 12 5) (List.replicate 12 3)
          [⟨[97], false, [104], 420⟩] ++
        [(Services.SALT_FILENAME, List.replicate 32 7)]) =
      .error (.metaLoadFailed .decMetadataFailed) ∧
    (PyExc.metaLoadFailed .decMetadataFailed).cls = ExcClass.invalidMetadataError ∧
    Services.decrypt_service [98] (fun _ => true)
      (encrypt_folder (KeyDerivation.kdfRaw [97] (List.replicate 32 7))
          (fun _ => List.replicate 12 5) (List.replicate 12 3)
          [⟨[97], false, [104], 420⟩] ++
        [(Services.SALT_FILENAME, List.replicate 32 7)]) =
      .error (.svcDecryptionFailed (.metaLoadFailed .decMetadataFailed)) ∧
    (PyExc.svcDecryptionFailed (.metaLoadFailed .decMetadataFailed)).cls =
      ExcClass.decryptionError ∧
    PyExc.decMetadataFailed.cls = ExcClass.decryptionError :=
  c2_wrong_password_error_kinds [97] [98] (List.replicate 32 7) (List.replicate 12 3)
    (fun _ => List.replicate 12 5) [⟨[97], false, [104], 420⟩]
    (by decide) (by decide) (by decide) (by simp) (by simp)

open FileProcessor KeyDerivation in
/-- Counterexample to C2 as stated: an AEAD authentication failure while
decrypting the manifest surfaces from `_load_metadata` as
`InvalidMetadataError` (the `MetadataInvalid` kind), not as the
wrong-password `DecryptionError`. -/
theorem c2_counterexample :
    load_metadata (List.replicate 32 1)
      [(METADATA_FILENAME,
        save_metadata_bytes (List.replicate 32 0) (List.replicate 12 0) [])] =
      .error (.metaLoadFailed .decMetadataFailed) ∧
    (PyExc.metaLoadFailed .decMetadataFailed).cls = ExcClass.invalidMetadataError ∧
    ExcClass.invalidMetadataError ≠ ExcClass.decryptionError :=
  ⟨load_metadata_wrong_key (List.replicate 32 0) (List.replicate 32 1) _
      (List.replicate 12 0) [] (by simp) (by decide) (by simp [find_file]),
    rfl, by decide⟩

open FileProcessor KeyDerivation Services in
/-- **C7**: the encrypt service writes `.salt` last — after every
ciphertext file and after the encrypted manifest — and the decrypt
service reads `.salt` before anything else, failing with the
salt-specific `DecryptionError`s (`"Salt file not found. Invalid
encrypted folder."` / `"Invalid salt file. Corrupted encrypted folder."`,
the code's realisation of the malformed-input kind) when `.salt` is
absent or not exactly 32 bytes, whatever the rest of the directory
contains. -/
theorem c7_salt_sidecar
    (password salt metaNonce : List Nat) (nonces : Nat → List Nat)
    (strengthOk : List Nat → Bool) (tree : List FsItem)
    (hp : password ≠ []) (hs : salt.length = 32) :
    encrypt_service false strengthOk salt nonces metaNonce password tree =
      .ok ((encrypt_items (kdfRaw password salt) nonces (collect_items tree) 0).1 ++
        [(METADATA_FILENAME,
          save_metadata_bytes (kdfRaw password salt) metaNonce
            (encrypt_items (kdfRaw password salt) nonces (collect_items tree) 0).2)] ++
        [(SALT_FILENAME, salt)]) ∧
    (∀ (dir : List (List Nat × List Nat)) (chmodOk : List Nat → Bool) (pw : List Nat),
      find_file dir SALT_FILENAME = none →
      decrypt_service pw chmodOk dir = .error .svcSaltNotFound) ∧
    (∀ (dir : List (List Nat × List Nat)) (chmodOk : List Nat → Bool)
        (pw s : List Nat),
      find_file dir SALT_FILENAME = some s → s.length ≠ 32 →
      decrypt_service pw chmodOk dir = .error .svcInvalidSaltFile) ∧
    PyExc.svcSaltNotFound.cls = ExcClass.decryptionError ∧
    PyExc.svcInvalidSaltFile.cls = ExcClass.decryptionError := by
  refine ⟨?_, ?_, ?_, rfl, rfl⟩
  · unfold encrypt_service
    rw [if_neg (by simp)]
    simp only [derive_key_ok password salt hp hs]
    unfold encrypt_folder
    rfl
  · intro dir chmodOk pw hnone
    unfold decrypt_service
    simp only [hnone]
  · intro dir chmodOk pw s hsome hlen
    unfold decrypt_service
    simp only [hsome]
    rw [if_pos hlen]

open FileProcessor in
/-- Witness for C7 at a concrete empty tree and password `"abc"`. -/
theorem c7_witness :
    Services.encrypt_service false (fun _ => true) (List.replicate 32 7)
        (fun _ => List.replicate 12 5) (List.replicate 12 3) [97, 98, 99] [] =
      .ok ((encrypt_items (KeyDerivation.kdfRaw [97, 98, 99] (List.replicate 32 7))
          (fun _ => List.replicate 12 5) (collect_items []) 0).1 ++
        [(METADATA_FILENAME,
          save_metadata_bytes (KeyDerivation.kdfRaw [97, 98, 99] (List.replicate 32 7))
            (List.replicate 12 3)
            (encrypt_items (KeyDerivation.kdfRaw [97, 98, 99] (List.replicate 32 7))
              (fun _ => List.replicate 12 5) (collect_items []) 0).2)] ++
        [(Services.SALT_FILENAME, List.replicate 32 7)]) ∧
    Services.decrypt_service [97] (fun _ => true) [] = .error .svcSaltNotFound :=
  ⟨(c7_salt_sidecar [97, 98, 99] (List.replicate 32 7) (List.replicate 12 3)
      (fun _ => List.replicate 12 5) (fun _ => true) [] (by decide) (by simp)).1,
    (c7_salt_sidecar [97, 98, 99] (List.replicate 32 7) (List.replicate 12 3)
      (fun _ => List.replicate 12 5) (fun _ => true) [] (by decide) (by simp)).2.1
      [] (fun _ => true) [97] rfl⟩

open FileProcessor in
/-- **C8**: `_collect_items` returns all directory entries first, sorted
lexicographically ascending by path, then all file entries sorted the
same way; the manifest rows are produced in exactly this order, and the
order is independent of the filesystem enumeration order (any permutation
of the same tree collects to the identical list). -/
theorem c8_manifest_ordering (key : List Nat) (nonces : Nat → List Nat)
    (tree tree' : List FsItem)
    (hnd : (tree.map FsItem.path).Nodup) (hperm : List.Perm tree tree') :
    collect_items tree =
      List.insertionSort itemLe (tree.filter fun i => i.isDir) ++
        List.insertionSort itemLe (tree.filter fun i => !i.isDir) ∧
    (∀ x ∈ List.insertionSort itemLe (tree.filter fun i => i.isDir), x.isDir = true) ∧
    (∀ x ∈ List.insertionSort itemLe (tree.filter fun i => !i.isDir), x.isDir = false) ∧
    List.Sorted itemLe (List.insertionSort itemLe (tree.filter fun i => i.isDir)) ∧
    List.Sorted itemLe (List.insertionSort itemLe (tree.filter fun i => !i.isDir)) ∧
    ((encrypt_items key nonces (collect_items tree) 0).2).map
        (fun m => m.relative_path) =
      (collect_items tree).map FsItem.path ∧
    collect_items tree' = collect_items tree := by
  have hndDirs : ((tree.filter fun i => i.isDir).map FsItem.path).Nodup :=
    ((List.filter_sublist tree).map FsItem.path).nodup hnd
  have hndFiles : ((tree.filter fun i => !i.isDir).map FsItem.path).Nodup :=
    ((List.filter_sublist tree).map FsItem.path).nodup hnd
  refine ⟨rfl, ?_, ?_, List.sorted_insertionSort itemLe _,
    List.sorted_insertionSort itemLe _, encrypt_items_paths key nonces _ 0, ?_⟩
  · intro x hx
    have : x ∈ tree.filter fun i => i.isDir :=
      (List.perm_insertionSort itemLe _).mem_iff.mp hx
    simpa using (List.of_mem_filter this)
  · intro x hx
    have : x ∈ tree.filter fun i => !i.isDir :=
      (List.perm_insertionSort itemLe _).mem_iff.mp hx
    simpa using (List.of_mem_filter this)
  · unfold collect_items
    have hdirs : List.insertionSort itemLe (tree'.filter fun i => i.isDir) =
        List.insertionSort itemLe (tree.filter fun i => i.isDir) := by
      apply sorted_eq_of_perm_nodup_paths
      · exact List.sorted_insertionSort itemLe _
      · exact List.sorted_insertionSort itemLe _
      · exact (List.perm_insertionSort itemLe _).trans
          (((hperm.symm.filter _).trans (List.perm_insertionSort itemLe _).symm))
      · exact (List.Perm.nodup_iff
          (((List.perm_insertionSort itemLe _).trans (hperm.symm.filter _)).map
            FsItem.path)).mpr hndDirs
    have hfiles : List.insertionSort itemLe (tree'.filter fun i => !i.isDir) =
        List.insertionSort itemLe (tree.filter fun i => !i.isDir) := by
      apply sorted_eq_of_perm_nodup_paths
      · exact List.sorted_insertionSort itemLe _
      · exact List.sorted_insertionSort itemLe _
      · exact (List.perm_insertionSort itemLe _).trans
          (((hperm.symm.filter _).trans (List.perm_insertionSort itemLe _).symm))
      · exact (List.Perm.nodup_iff
          (((List.perm_insertionSort itemLe _).trans (hperm.symm.filter _)).map
            FsItem.path)).mpr hndFiles
    rw [hdirs, hfiles]

open FileProcessor in
/-- Witness for C8 at a two-entry tree and its reversal. -/
theorem c8_witness :
    collect_items [⟨[98], false, [1], 1⟩, ⟨[97], true, [], 1⟩] =
      List.insertionSort itemLe
          ([⟨[98], false, [1], 1⟩, ⟨[97], true, [], 1⟩].filter fun i => i.isDir) ++
        List.insertionSort itemLe
          ([⟨[98], false, [1], 1⟩, ⟨[97], true, [], 1⟩].filter fun i => !i.isDir) ∧
    collect_items [⟨[97], true, [], 1⟩, ⟨[98], false, [1], 1⟩] =
      collect_items [⟨[98], false, [1], 1⟩, ⟨[97], true, [], 1⟩] :=
  ⟨(c8_manifest_ordering [] (fun _ => []) [⟨[98], false, [1], 1⟩, ⟨[97], true, [], 1⟩]
      [⟨[97], true, [], 1⟩, ⟨[98], false, [1], 1⟩] (by decide) (by decide)).1,
    (c8_manifest_ordering [] (fun _ => []) [⟨[98], false, [1], 1⟩, ⟨[97], true, [], 1⟩]
      [⟨[97], true, [], 1⟩, ⟨[98], false, [1], 1⟩] (by decide) (by decide)).2.2.2.2.2.2⟩

open FileProcessor in
/-- **C9**: during `decrypt_folder`, permission restoration is skipped
entirely when a manifest entry's `permissions` field is `None` or `0`
(a recorded mode of 0 is never restored; the entry keeps its default
creation mode, modelled as `none`); when restoration is attempted the
mode is applied only if `chmod` succeeds, and a failing `chmod` is
swallowed: the success, errors, and written contents of decryption are
identical for every `chmod` outcome oracle. -/
theorem c9_permission_restoration :
    (∀ (chmodOk : List Nat → Bool) (path : List Nat),
      restoreMode chmodOk none path = none) ∧
    (∀ (chmodOk : List Nat → Bool) (path : List Nat),
      restoreMode chmodOk (some 0) path = none) ∧
    (∀ (p : Nat) (path : List Nat) (chmodOk : List Nat → Bool), p ≠ 0 →
      restoreMode chmodOk (some p) path =
        if chmodOk path then some p else none) ∧
    (∀ (key : List Nat) (dir : List (List Nat × List Nat))
        (ms : List FileMetadata) (o₁ o₂ : List Nat → Bool),
      (decrypt_entries key o₁ dir ms).map (List.map RestoredEntry.written) =
        (decrypt_entries key o₂ dir ms).map (List.map RestoredEntry.written)) ∧
    (∀ (key : List Nat) (dir : List (List Nat × List Nat)) (o₁ o₂ : List Nat → Bool),
      (decrypt_folder key o₁ dir).map (List.map RestoredEntry.written) =
        (decrypt_folder key o₂ dir).map (List.map RestoredEntry.written)) :=
  ⟨fun _ _ => rfl,
    fun _ _ => rfl,
    fun p path chmodOk hp => by simp [restoreMode, hp],
    fun key dir ms o₁ o₂ => decrypt_entries_chmod_independent key dir o₁ o₂ ms,
    fun key dir o₁ o₂ => decrypt_folder_chmod_independent key dir o₁ o₂⟩

open FileProcessor in
/-- Witness for C9: a recorded mode of 0 is not restored, and a mode of
493 is applied exactly when `chmod` succeeds. -/
theorem c9_witness :
    restoreMode (fun _ => true) (some 0) [97] = none ∧
    restoreMode (fun _ => false) (some 493) [97] = none ∧
    restoreMode (fun _ => true) (some 493) [97] = some 493 :=
  ⟨c9_permission_restoration.2.1 (fun _ => true) [97],
    by
      have h := c9_permission_restoration.2.2.1 493 [97] (fun _ => false) (by decide)
      simpa using h,
    by
      have h := c9_permission_restoration.2.2.1 493 [97] (fun _ => true) (by decide)
      simpa using h⟩
